import Mathlib

/-!
Shallow embedding of the Ovda repository's two plotting pipelines.

Sources:
* `polEmissivity_vs_latitude.py` ("Pipeline B"): loads two GPKG layers,
  sorts each table by latitude, builds incidence-angle bin edges with
  `np.arange(min, max + 0.05, binSize)` from the H table, filters the V
  table to the H table's incidence-angle range, assigns bins with
  `pd.cut(..., bins, right=True)` and computes per-bin grouped
  mean / std transforms.
* `.ipynb_checkpoints/emissivity_vs_elevation-checkpoint.py`
  ("Pipeline A"): loads one layer and scatters two columns.

Numeric columns are modelled as exact rationals `ℚ`.  pandas `std` takes a
square root, which leaves `ℚ`; we model its square (the ddof=1 variance),
which determines the std (`std = Real.sqrt` of it, and `Real.sqrt` is
injective on nonnegatives), and keep `none` for pandas `NaN` results.
-/

/-- One attribute row of a loaded table: the three numeric fields Pipeline B
reads (`INCIDENCE_ANGLE`, `SURFACE_EMISSIVITY`, `RAD_FOOTPRINT_LATITUDE`). -/
structure Row where
  inc : ℚ
  emis : ℚ
  lat : ℚ
deriving DecidableEq, Repr

/-- `pandas.Series.min` over a numeric column: `none` on an empty table
(pandas returns NaN there). -/
def colMin : List ℚ → Option ℚ
  | [] => none
  | x :: xs => some (xs.foldl min x)

/-- `pandas.Series.max` over a numeric column: `none` on an empty table. -/
def colMax : List ℚ → Option ℚ
  | [] => none
  | x :: xs => some (xs.foldl max x)

/-- `numpy.arange start stop step` over exact rationals: the list
`start, start + step, …` of length `⌈(stop - start) / step⌉`
(clamped at zero).  Matches numpy for a positive `step`, the only case the
script exercises (its `binSize` flag). -/
def arange (start stop step : ℚ) : List ℚ :=
  List.map (fun i : ℕ => start + (i : ℚ) * step)
    (List.range (⌈(stop - start) / step⌉).toNat)

/-- `pd.cut(v, edges, right=True)` as the index of the assigned interval:
`some i` when `edges[i] < v ≤ edges[i+1]`, `none` when no interval contains
`v` (pandas NaN label).  Intervals are left-open because `right=True` and
`include_lowest` is not passed. -/
def cut (edges : List ℚ) (v : ℚ) : Option ℕ :=
  (List.range (edges.length - 1)).find?
    (fun i => decide (edges.getD i 0 < v ∧ v ≤ edges.getD (i + 1) 0))

/-- The last bin edge (`bins[-1]`): the `pd.cut` intervals jointly cover
`(bins[0], bins[-1]]`. -/
def lastEdge (edges : List ℚ) : ℚ :=
  edges.getD (edges.length - 1) 0

/-- `DataFrame.sort_values(latField)`: sort rows by latitude.  pandas'
default quicksort is deterministic on a given input; the grouped statistics
below depend only on the multiset of rows. -/
def sort_values (t : List Row) : List Row :=
  t.mergeSort (fun a b => decide (a.lat ≤ b.lat))

/-- Lines 97-99: bin edges `np.arange(min_thi, max_thi + 0.05, binSize)`
from the H table's incidence-angle column; `[]` for an empty table (the
real script would feed NaN into `arange` there). -/
def binsOf (dfh : List Row) (binSize : ℚ) : List ℚ :=
  match colMin (dfh.map Row.inc), colMax (dfh.map Row.inc) with
  | some mn, some mx => arange mn (mx + 1/20) binSize
  | _, _ => []

/-- Line 100: keep only V rows whose incidence angle lies in the H table's
`[min, max]` incidence-angle range.  With an empty H table pandas compares
against NaN, which is always `False`, so every row drops. -/
def filterV (dfh dfv : List Row) : List Row :=
  match colMin (dfh.map Row.inc), colMax (dfh.map Row.inc) with
  | some mn, some mx => dfv.filter (fun r => decide (mn ≤ r.inc ∧ r.inc ≤ mx))
  | _, _ => []

/-- The rows of `t` grouped under bin index `i` by
`groupby("BIN")`: those whose `pd.cut` label is interval `i`.  Rows with a
NaN label (no interval) belong to no group. -/
def groupRows (edges : List ℚ) (t : List Row) (i : ℕ) : List Row :=
  t.filter (fun r => decide (cut edges r.inc = some i))

/-- Grouped `mean` of a list of values; `none` (NaN) on the empty list. -/
def meanQ (xs : List ℚ) : Option ℚ :=
  if xs.isEmpty then none else some (xs.sum / (xs.length : ℚ))

/-- The square of pandas `Series.std` (default `ddof=1`): the sample
variance `Σ (x - mean)² / (n - 1)`; `none` (NaN) when `n ≤ 1`. -/
def stdSq (xs : List ℚ) : Option ℚ :=
  if xs.length ≤ 1 then none
  else
    some (((xs.map (fun x => (x - xs.sum / (xs.length : ℚ)) ^ 2)).sum) /
      ((xs.length : ℚ) - 1))

/-- Modelled from the spec: the *population* standard deviation's square
(variance with divisor `n`), the statistic §4.2 of the spec names.  Used
only to compare against the code's `stdSq`. -/
def popStdSq (xs : List ℚ) : Option ℚ :=
  if xs.isEmpty then none
  else
    some (((xs.map (fun x => (x - xs.sum / (xs.length : ℚ)) ^ 2)).sum) /
      (xs.length : ℚ))

/-- Lines 104-108 / 110-114: one bin's summary for one table: grouped mean
and (squared) std of emissivity, mean incidence angle, mean latitude. -/
structure BinSummary where
  meanEmis : Option ℚ
  stdSqEmis : Option ℚ
  meanInc : Option ℚ
  meanLat : Option ℚ
deriving DecidableEq, Repr

/-- All bin summaries of one table against a fixed edge list. -/
def summarize (edges : List ℚ) (t : List Row) : List BinSummary :=
  (List.range (edges.length - 1)).map (fun i =>
    { meanEmis := meanQ ((groupRows edges t i).map Row.emis)
      stdSqEmis := stdSq ((groupRows edges t i).map Row.emis)
      meanInc := meanQ ((groupRows edges t i).map Row.inc)
      meanLat := meanQ ((groupRows edges t i).map Row.lat) })

/-- Lines 93-114 of `main`: the sort / bin / filter / aggregate stage of
Pipeline B, from the two loaded tables and the bin size to the two tables'
bin summaries. -/
def stage (binSize : ℚ) (dfh0 dfv0 : List Row) :
    List BinSummary × List BinSummary :=
  let dfh := sort_values dfh0
  let dfvS := sort_values dfv0
  let edges := binsOf dfh binSize
  let dfv := filterV dfh dfvS
  (summarize edges dfh, summarize edges dfv)

/-- A named vector layer of a GPKG file, reduced to its attribute rows. -/
structure Layer where
  lname : String
  rows : List Row
deriving DecidableEq, Repr

/-- A GPKG container: an ordered list of named layers. -/
structure GpkgFile where
  layers : List Layer
deriving DecidableEq, Repr

/-- `fiona.listlayers`: the layer names of a file, in order. -/
def listlayers (f : GpkgFile) : List String :=
  f.layers.map Layer.lname

/-- `gpd.read_file(f, layer = name)`: attribute rows of the named layer,
`none` when no layer of that name exists (geopandas raises there). -/
def read_file (f : GpkgFile) (layer : String) : Option (List Row) :=
  (f.layers.find? (fun l => decide (l.lname = layer))).map Layer.rows

/-- Lines 87-90 of `polEmissivity_vs_latitude.py`, exactly as written:
`Hlayer = fiona.listlayers(Hfile)[0]` (computed but never used),
`Vlayer = fiona.listlayers(Vfile)[0]`, then *both* reads pass
`layer = Vlayer` — the H file is read with the V file's first layer name.
Returns `(H table, V table)`, `none` when an indexing or read raises. -/
def loadTables (hfile vfile : GpkgFile) : Option (List Row × List Row) :=
  match (listlayers vfile).head? with
  | none => none
  | some vlayer =>
    match read_file vfile vlayer, read_file hfile vlayer with
    | some v, some h => some (h, v)
    | _, _ => none

/-- Lines 81-82 of the Pipeline A script, and the spec §4.1 loader
contract: read the file's *own* first layer. -/
def read_first (f : GpkgFile) : Option (List Row) :=
  match (listlayers f).head? with
  | none => none
  | some l => read_file f l

/-! ### Helper lemmas -/

lemma foldl_min_le (xs : List ℚ) (x : ℚ) : xs.foldl min x ≤ x := by
  induction xs generalizing x with
  | nil => simp
  | cons y ys ih =>
    calc (y :: ys).foldl min x = ys.foldl min (min x y) := rfl
    _ ≤ min x y := ih _
    _ ≤ x := min_le_left _ _

lemma le_foldl_max (xs : List ℚ) (x : ℚ) : x ≤ xs.foldl max x := by
  induction xs generalizing x with
  | nil => simp
  | cons y ys ih =>
    calc x ≤ max x y := le_max_left _ _
    _ ≤ ys.foldl max (max x y) := ih _
    _ = (y :: ys).foldl max x := rfl

lemma colMin_le_colMax {xs : List ℚ} {mn mx : ℚ}
    (h1 : colMin xs = some mn) (h2 : colMax xs = some mx) : mn ≤ mx := by
  cases xs with
  | nil => simp [colMin] at h1
  | cons x ys =>
    simp [colMin] at h1
    simp [colMax] at h2
    subst h1
    subst h2
    exact le_trans (foldl_min_le ys x) (le_foldl_max ys x)

lemma arange_length (a b s : ℚ) :
    (arange a b s).length = (⌈(b - a) / s⌉).toNat := by
  rw [arange, List.length_map, List.length_range]

lemma arange_getD (a b s : ℚ) (i : ℕ) (h : i < (arange a b s).length) :
    (arange a b s).getD i 0 = a + (i : ℚ) * s := by
  rw [List.getD_eq_getElem _ _ h]
  have h2 : i < (List.range (⌈(b - a) / s⌉).toNat).length := by
    rw [List.length_range]
    rw [arange_length] at h
    exact h
  show (List.map (fun i : ℕ => a + (i : ℚ) * s) (List.range (⌈(b - a) / s⌉).toNat))[i] = _
  rw [List.getElem_map, List.getElem_range]

lemma find?_range'_eq_some (p : ℕ → Bool) (s n i : ℕ) (h1 : s ≤ i) (h2 : i < s + n)
    (hp : p i = true) (hmin : ∀ j, s ≤ j → j < i → p j = false) :
    (List.range' s n).find? p = some i := by
  induction n generalizing s with
  | zero => omega
  | succ n ih =>
    rw [List.range'_succ, List.find?_cons]
    by_cases hs : i = s
    · subst hs
      simp [hp]
    · have hfs : p s = false := hmin s le_rfl (by omega)
      simp only [hfs]
      exact ih (s + 1) (by omega) (by omega) (fun j ha hb => hmin j (by omega) hb)

lemma ceil_toNat_eq (q : ℚ) (n : ℕ) (h1 : (n : ℚ) - 1 < q) (h2 : q ≤ (n : ℚ)) :
    (⌈q⌉).toNat = n := by
  have h : ⌈q⌉ = (n : ℤ) := by
    rw [Int.ceil_eq_iff]
    constructor
    · push_cast
      exact h1
    · push_cast
      exact h2
  rw [h]
  exact Int.toNat_natCast n

lemma arange_eval (a b s : ℚ) (n : ℕ) (h : (⌈(b - a) / s⌉).toNat = n) :
    arange a b s = List.map (fun i : ℕ => a + (i : ℚ) * s) (List.range n) := by
  rw [arange, h]

lemma binsOf_eq (t : List Row) (s mn mx : ℚ)
    (h1 : colMin (t.map Row.inc) = some mn) (h2 : colMax (t.map Row.inc) = some mx) :
    binsOf t s = arange mn (mx + 1/20) s := by
  rw [binsOf, h1, h2]

lemma lastEdge_arange (a b s : ℚ) (hn : 1 ≤ (arange a b s).length) :
    lastEdge (arange a b s) = a + (((arange a b s).length - 1 : ℕ) : ℚ) * s := by
  rw [lastEdge]
  exact arange_getD a b s _ (by omega)

lemma arange_pairwise (a b s : ℚ) (hs : 0 < s) :
    (arange a b s).Pairwise (· < ·) := by
  rw [arange]
  refine (List.pairwise_lt_range _).map _ ?_
  intro i j hij
  have hq : (i : ℚ) < (j : ℚ) := by exact_mod_cast hij
  have := mul_lt_mul_of_pos_right hq hs
  linarith

lemma exists_bin (a s v : ℚ) (n : ℕ) (hv : a < v)
    (hle : v ≤ a + ((n - 1 : ℕ) : ℚ) * s) :
    ∃ i : ℕ, i < n - 1 ∧ a + (i : ℚ) * s < v ∧ v ≤ a + ((i : ℚ) + 1) * s := by
  induction n with
  | zero =>
    norm_num at hle
    linarith
  | succ m ih =>
    rcases Nat.eq_zero_or_pos m with hm | hm
    · subst hm
      norm_num at hle
      linarith
    · have hle' : v ≤ a + (m : ℚ) * s := by
        have he : ((m + 1 - 1 : ℕ) : ℚ) = (m : ℚ) := by norm_num
        rwa [he] at hle
      have hsub : ((m - 1 : ℕ) : ℚ) = (m : ℚ) - 1 := by
        have h1 : (1 : ℕ) ≤ m := hm
        push_cast [h1]
        ring
      by_cases h : v ≤ a + ((m - 1 : ℕ) : ℚ) * s
      · obtain ⟨i, hi, hlo, hhi⟩ := ih h
        exact ⟨i, by omega, hlo, hhi⟩
      · push_neg at h
        refine ⟨m - 1, by omega, h, ?_⟩
        calc v ≤ a + (m : ℚ) * s := hle'
        _ = a + (((m - 1 : ℕ) : ℚ) + 1) * s := by rw [hsub]; ring

lemma cut_arange_isSome (a b s v : ℚ) (hs : 0 < s)
    (hn : 1 ≤ (arange a b s).length) :
    (cut (arange a b s) v).isSome ↔
      a < v ∧ v ≤ a + (((arange a b s).length - 1 : ℕ) : ℚ) * s := by
  rw [cut, List.find?_isSome]
  constructor
  · rintro ⟨i, hi, hp⟩
    rw [List.mem_range] at hi
    simp only [decide_eq_true_eq] at hp
    obtain ⟨h1, h2⟩ := hp
    rw [arange_getD a b s i (by omega)] at h1
    rw [arange_getD a b s (i + 1) (by omega)] at h2
    constructor
    · have h0 : (0 : ℚ) ≤ (i : ℚ) * s := mul_nonneg (by positivity) (le_of_lt hs)
      linarith
    · have hle : ((i + 1 : ℕ) : ℚ) ≤ (((arange a b s).length - 1 : ℕ) : ℚ) := by
        exact_mod_cast Nat.succ_le_of_lt hi
      have h3 : ((i + 1 : ℕ) : ℚ) * s ≤ (((arange a b s).length - 1 : ℕ) : ℚ) * s :=
        mul_le_mul_of_nonneg_right hle (le_of_lt hs)
      linarith
  · rintro ⟨hv, hle⟩
    obtain ⟨i, hi, hlo, hhi⟩ := exists_bin a s v (arange a b s).length hv hle
    refine ⟨i, List.mem_range.mpr hi, ?_⟩
    simp only [decide_eq_true_eq]
    refine ⟨?_, ?_⟩
    · rw [arange_getD a b s i (by omega)]
      exact hlo
    · rw [arange_getD a b s (i + 1) (by omega)]
      push_cast
      exact hhi

lemma none_eq_someN (n : ℕ) : ((none : Option ℕ) = some n) = False := by
  simp

lemma sum_sub_sq (xs : List ℚ) (c : ℚ) :
    (xs.map (fun x => (x - c) ^ 2)).sum
      = (xs.map (fun x => x ^ 2)).sum - 2 * c * xs.sum + (xs.length : ℚ) * c ^ 2 := by
  induction xs with
  | nil => simp
  | cons y ys ih =>
    simp only [List.map_cons, List.sum_cons, ih, List.length_cons]
    push_cast
    ring

lemma stdSq_sample_formula (xs : List ℚ) (h : 2 ≤ xs.length) :
    stdSq xs = some (((xs.length : ℚ) * (xs.map (fun x => x ^ 2)).sum - xs.sum ^ 2) /
      ((xs.length : ℚ) * ((xs.length : ℚ) - 1))) := by
  rw [stdSq, if_neg (by omega)]
  congr 1
  rw [sum_sub_sq]
  have hn : (2 : ℚ) ≤ (xs.length : ℚ) := by exact_mod_cast h
  have h0 : (xs.length : ℚ) ≠ 0 := by
    intro hc
    rw [hc] at hn
    norm_num at hn
  have h1 : (xs.length : ℚ) - 1 ≠ 0 := by
    intro hc
    have : (xs.length : ℚ) = 1 := by linarith
    rw [this] at hn
    norm_num at hn
  field_simp
  ring

/-! ### Claim theorems -/

/-- C1, counterexample: with an H table whose incidence angles are 10 and 22
and `binSize = 10`, the edges are `[10, 20]`: the row at the minimum (10)
and the row at the maximum (22) both receive no bin, refuting "every row's
incidence angle, including the minimum and the maximum, is assigned to some
bin" and "covers the full range including its maximum". -/
theorem C1_min_max_unassigned_cex :
    cut (binsOf ([⟨10, 1, 0⟩, ⟨22, 2, 0⟩] : List Row) 10) ((⟨10, 1, 0⟩ : Row).inc) = none ∧
    cut (binsOf ([⟨10, 1, 0⟩, ⟨22, 2, 0⟩] : List Row) 10) ((⟨22, 2, 0⟩ : Row).inc) = none ∧
    colMax (([⟨10, 1, 0⟩, ⟨22, 2, 0⟩] : List Row).map Row.inc) = some 22 := by
  have hb : binsOf ([⟨10, 1, 0⟩, ⟨22, 2, 0⟩] : List Row) 10 = [10, 20] := by
    rw [binsOf_eq _ _ 10 22 (by norm_num [colMin, min_def]) (by norm_num [colMax, max_def])]
    rw [arange_eval 10 (22 + 1/20) 10 2 (ceil_toNat_eq _ 2 (by norm_num) (by norm_num))]
    norm_num [List.range_succ]
  refine ⟨?_, ?_, ?_⟩
  · rw [hb]
    norm_num [cut, List.range_succ, List.find?]
  · rw [hb]
    norm_num [cut, List.range_succ, List.find?]
  · norm_num [colMax, max_def]

/-- C1, amended: for a positive bin size and a nonempty H table, the bin
edges are strictly increasing, and a row is assigned to some bin exactly
when its incidence angle is strictly above the H minimum and at most the
last edge; the maximum is covered by the last edge whenever the range
`max - min` is a positive integer multiple of the bin size (otherwise the
row at the minimum, and possibly the maximum, is unassigned). -/
theorem C1_bin_edges_amended (t : List Row) (s mn mx : ℚ) (hs : 0 < s)
    (hmn : colMin (t.map Row.inc) = some mn) (hmx : colMax (t.map Row.inc) = some mx) :
    (binsOf t s).Pairwise (· < ·) ∧
    (∀ r : Row, r ∈ t →
      ((cut (binsOf t s) r.inc).isSome ↔ mn < r.inc ∧ r.inc ≤ lastEdge (binsOf t s))) ∧
    (∀ m : ℕ, 0 < m → mx = mn + (m : ℚ) * s → mx ≤ lastEdge (binsOf t s)) := by
  have hbe : binsOf t s = arange mn (mx + 1/20) s := binsOf_eq t s mn mx hmn hmx
  have hmnmx : mn ≤ mx := colMin_le_colMax hmn hmx
  have hn : 1 ≤ (arange mn (mx + 1/20) s).length := by
    rw [arange_length]
    have hpos : (0 : ℚ) < (mx + 1/20 - mn) / s := by
      apply div_pos _ hs
      linarith
    have := Int.ceil_pos.mpr hpos
    omega
  rw [hbe]
  refine ⟨arange_pairwise _ _ _ hs, ?_, ?_⟩
  · intro r hr
    rw [cut_arange_isSome mn (mx + 1/20) s r.inc hs hn, lastEdge_arange mn (mx + 1/20) s hn]
  · intro m hm hmx2
    rw [lastEdge_arange mn (mx + 1/20) s hn]
    have hceil : (m : ℤ) < ⌈(mx + 1/20 - mn) / s⌉ := by
      rw [Int.lt_ceil, hmx2, lt_div_iff₀ hs]
      push_cast
      linarith
    have hlen : m + 1 ≤ (arange mn (mx + 1/20) s).length := by
      rw [arange_length]
      omega
    have hcast : (m : ℚ) ≤ (((arange mn (mx + 1/20) s).length - 1 : ℕ) : ℚ) := by
      have hmle : m ≤ (arange mn (mx + 1/20) s).length - 1 := by omega
      exact_mod_cast hmle
    have hmul := mul_le_mul_of_nonneg_right hcast (le_of_lt hs)
    linarith

/-- C1, witness for the amended theorem at the H table with incidence
angles 10 and 22 and bin size 10. -/
theorem C1_bin_edges_amended_witness :
    (binsOf ([⟨10, 1, 0⟩, ⟨22, 2, 0⟩] : List Row) 10).Pairwise (· < ·) ∧
    (∀ r : Row, r ∈ ([⟨10, 1, 0⟩, ⟨22, 2, 0⟩] : List Row) →
      ((cut (binsOf ([⟨10, 1, 0⟩, ⟨22, 2, 0⟩] : List Row) 10) r.inc).isSome ↔
        10 < r.inc ∧ r.inc ≤ lastEdge (binsOf ([⟨10, 1, 0⟩, ⟨22, 2, 0⟩] : List Row) 10))) ∧
    (∀ m : ℕ, 0 < m → (22 : ℚ) = 10 + (m : ℚ) * 10 →
      (22 : ℚ) ≤ lastEdge (binsOf ([⟨10, 1, 0⟩, ⟨22, 2, 0⟩] : List Row) 10)) :=
  C1_bin_edges_amended _ 10 10 22 (by norm_num)
    (by norm_num [colMin, min_def]) (by norm_num [colMax, max_def])

/-- C2: with the pipeline's bin edges, a row whose incidence angle equals
the upper edge of bin `i` (the edge at index `i + 1`) is assigned by
`pd.cut(..., right=True)` to bin `i` itself, not to the next higher bin. -/
theorem C2_right_inclusive (t : List Row) (s : ℚ) (hs : 0 < s) (i : ℕ)
    (hi : i + 1 < (binsOf t s).length) (r : Row) (_hr : r ∈ t)
    (hv : r.inc = (binsOf t s).getD (i + 1) 0) :
    cut (binsOf t s) r.inc = some i := by
  rcases h1 : colMin (t.map Row.inc) with _ | mn
  · rw [binsOf] at hi
    rw [h1] at hi
    simp at hi
  rcases h2 : colMax (t.map Row.inc) with _ | mx
  · rw [binsOf] at hi
    rw [h1, h2] at hi
    simp at hi
  have hbe : binsOf t s = arange mn (mx + 1/20) s := binsOf_eq t s mn mx h1 h2
  rw [hbe] at hi hv ⊢
  rw [arange_getD _ _ _ (i + 1) hi] at hv
  rw [cut, List.range_eq_range']
  refine find?_range'_eq_some _ 0 _ i (Nat.zero_le i) (by omega) ?_ ?_
  · simp only [decide_eq_true_eq]
    rw [arange_getD _ _ _ i (by omega), arange_getD _ _ _ (i + 1) (by omega), hv]
    constructor
    · have hq : (i : ℚ) < ((i + 1 : ℕ) : ℚ) := by
        push_cast
        linarith
      have := mul_lt_mul_of_pos_right hq hs
      linarith
    · exact le_refl _
  · intro j hj0 hji
    apply decide_eq_false
    rintro ⟨hlt, hle⟩
    rw [arange_getD _ _ _ (j + 1) (by omega)] at hle
    rw [hv] at hle
    have h3 : ((i + 1 : ℕ) : ℚ) * s ≤ ((j + 1 : ℕ) : ℚ) * s := by linarith
    have h4 : ((i + 1 : ℕ) : ℚ) ≤ ((j + 1 : ℕ) : ℚ) := le_of_mul_le_mul_right h3 hs
    have h5 : i + 1 ≤ j + 1 := by exact_mod_cast h4
    omega

/-- C2, witness: in the scenario table, the row with incidence angle 20
(the upper edge of the first bin) is assigned to bin 0, not bin 1. -/
theorem C2_right_inclusive_witness :
    cut (binsOf ([⟨10, 1/2, 0⟩, ⟨10, 3/5, 0⟩, ⟨20, 4/5, 0⟩, ⟨30, 9/10, 0⟩] : List Row) 10)
      ((⟨20, 4/5, 0⟩ : Row).inc) = some 0 := by
  have hb : binsOf ([⟨10, 1/2, 0⟩, ⟨10, 3/5, 0⟩, ⟨20, 4/5, 0⟩, ⟨30, 9/10, 0⟩] : List Row) 10 =
      [10, 20, 30] := by
    rw [binsOf_eq _ _ 10 30 (by norm_num [colMin, min_def]) (by norm_num [colMax, max_def])]
    rw [arange_eval 10 (30 + 1/20) 10 3 (ceil_toNat_eq _ 3 (by norm_num) (by norm_num))]
    norm_num [List.range_succ]
  exact C2_right_inclusive _ 10 (by norm_num) 0 (by rw [hb]; norm_num) _ (by simp)
    (by rw [hb]; norm_num)

/-- C10: a row whose incidence angle equals the H-table minimum (the first
bin edge) receives no bin label from `pd.cut` (intervals are left-open) and
is therefore in no bin's group, hence excluded from every per-bin mean and
standard-deviation aggregate. -/
theorem C10_min_excluded (t : List Row) (s mn : ℚ) (hs : 0 < s)
    (hmn : colMin (t.map Row.inc) = some mn) (r : Row) (hr : r ∈ t) (hinc : r.inc = mn) :
    cut (binsOf t s) r.inc = none ∧ ∀ i : ℕ, r ∉ groupRows (binsOf t s) t i := by
  have hmx : ∃ mx, colMax (t.map Row.inc) = some mx := by
    cases t with
    | nil => simp [colMin] at hmn
    | cons a l => exact ⟨_, rfl⟩
  obtain ⟨mx, hbx⟩ := hmx
  have hbe : binsOf t s = arange mn (mx + 1/20) s := binsOf_eq t s mn mx hmn hbx
  have hcut : cut (binsOf t s) r.inc = none := by
    rw [hbe, cut, List.find?_eq_none]
    intro j hj
    rw [List.mem_range] at hj
    simp only [decide_eq_true_eq]
    rintro ⟨hlt, -⟩
    rw [arange_getD _ _ _ j (by omega)] at hlt
    rw [hinc] at hlt
    have h0 : (0 : ℚ) ≤ (j : ℚ) * s := mul_nonneg (Nat.cast_nonneg j) (le_of_lt hs)
    linarith
  refine ⟨hcut, fun i hmem => ?_⟩
  rw [groupRows, List.mem_filter] at hmem
  obtain ⟨-, hp⟩ := hmem
  simp only [decide_eq_true_eq] at hp
  rw [hcut] at hp
  exact Option.noConfusion hp

/-- C10, witness: in the table with incidence angles 10 and 22 and bin
size 10, the row at the minimum (10) is unassigned and in no bin group. -/
theorem C10_min_excluded_witness :
    cut (binsOf ([⟨10, 1, 0⟩, ⟨22, 2, 0⟩] : List Row) 10) ((⟨10, 1, 0⟩ : Row).inc) = none ∧
    ∀ i : ℕ, (⟨10, 1, 0⟩ : Row) ∉
      groupRows (binsOf ([⟨10, 1, 0⟩, ⟨22, 2, 0⟩] : List Row) 10)
        ([⟨10, 1, 0⟩, ⟨22, 2, 0⟩] : List Row) i :=
  C10_min_excluded _ 10 10 (by norm_num) (by norm_num [colMin, min_def]) _ (by simp) rfl

/-- C3, counterexample: on the scenario table (incidence angles
[10,10,20,30], emissivities [0.5,0.6,0.8,0.9], bin size 10) the edges are
`[10, 20, 30]`; the bin with upper edge 20 contains exactly one row (the
angle-20 one) with mean 0.8 — not the first two rows with mean 0.55 — and
there are only two bins, so no further bin holds the 0.9 row. -/
theorem C3_scenario_cex :
    binsOf ([⟨10, 1/2, 0⟩, ⟨10, 3/5, 0⟩, ⟨20, 4/5, 0⟩, ⟨30, 9/10, 0⟩] : List Row) 10 =
      [10, 20, 30] ∧
    groupRows (binsOf ([⟨10, 1/2, 0⟩, ⟨10, 3/5, 0⟩, ⟨20, 4/5, 0⟩, ⟨30, 9/10, 0⟩] : List Row) 10)
      ([⟨10, 1/2, 0⟩, ⟨10, 3/5, 0⟩, ⟨20, 4/5, 0⟩, ⟨30, 9/10, 0⟩] : List Row) 0 =
      [⟨20, 4/5, 0⟩] ∧
    meanQ ((groupRows
        (binsOf ([⟨10, 1/2, 0⟩, ⟨10, 3/5, 0⟩, ⟨20, 4/5, 0⟩, ⟨30, 9/10, 0⟩] : List Row) 10)
        ([⟨10, 1/2, 0⟩, ⟨10, 3/5, 0⟩, ⟨20, 4/5, 0⟩, ⟨30, 9/10, 0⟩] : List Row) 0).map
        Row.emis) ≠ some (11/20) := by
  have hb : binsOf ([⟨10, 1/2, 0⟩, ⟨10, 3/5, 0⟩, ⟨20, 4/5, 0⟩, ⟨30, 9/10, 0⟩] : List Row) 10 =
      [10, 20, 30] := by
    rw [binsOf_eq _ _ 10 30 (by norm_num [colMin, min_def]) (by norm_num [colMax, max_def])]
    rw [arange_eval 10 (30 + 1/20) 10 3 (ceil_toNat_eq _ 3 (by norm_num) (by norm_num))]
    norm_num [List.range_succ]
  refine ⟨hb, ?_, ?_⟩
  · rw [hb]
    norm_num [groupRows, cut, List.range_succ, List.find?, List.filter_cons, List.filter_nil,
      none_eq_someN, Option.some.injEq]
  · rw [hb]
    norm_num [groupRows, cut, List.range_succ, List.find?, List.filter_cons, List.filter_nil,
      none_eq_someN, Option.some.injEq, meanQ]

/-- C3, amended: what the code actually produces on the scenario input: the
two rows at the minimum angle 10 get no bin; the bin with upper edge 20
contains only the angle-20 row (mean 0.8, std NaN), the bin with upper edge
30 contains only the angle-30 row (mean 0.9, std NaN), and there is no
further bin. -/
theorem C3_scenario_amended :
    binsOf ([⟨10, 1/2, 0⟩, ⟨10, 3/5, 0⟩, ⟨20, 4/5, 0⟩, ⟨30, 9/10, 0⟩] : List Row) 10 =
      [10, 20, 30] ∧
    ([⟨10, 1/2, 0⟩, ⟨10, 3/5, 0⟩, ⟨20, 4/5, 0⟩, ⟨30, 9/10, 0⟩] : List Row).map
      (fun r => cut (binsOf
        ([⟨10, 1/2, 0⟩, ⟨10, 3/5, 0⟩, ⟨20, 4/5, 0⟩, ⟨30, 9/10, 0⟩] : List Row) 10) r.inc) =
      [none, none, some 0, some 1] ∧
    summarize (binsOf ([⟨10, 1/2, 0⟩, ⟨10, 3/5, 0⟩, ⟨20, 4/5, 0⟩, ⟨30, 9/10, 0⟩] : List Row) 10)
      ([⟨10, 1/2, 0⟩, ⟨10, 3/5, 0⟩, ⟨20, 4/5, 0⟩, ⟨30, 9/10, 0⟩] : List Row) =
      [⟨some (4/5), none, some 20, some 0⟩, ⟨some (9/10), none, some 30, some 0⟩] := by
  have hb : binsOf ([⟨10, 1/2, 0⟩, ⟨10, 3/5, 0⟩, ⟨20, 4/5, 0⟩, ⟨30, 9/10, 0⟩] : List Row) 10 =
      [10, 20, 30] := by
    rw [binsOf_eq _ _ 10 30 (by norm_num [colMin, min_def]) (by norm_num [colMax, max_def])]
    rw [arange_eval 10 (30 + 1/20) 10 3 (ceil_toNat_eq _ 3 (by norm_num) (by norm_num))]
    norm_num [List.range_succ]
  refine ⟨hb, ?_, ?_⟩
  · rw [hb]
    norm_num [cut, List.range_succ, List.find?]
  · rw [hb]
    norm_num [summarize, groupRows, cut, List.range_succ, List.find?, List.filter_cons,
      List.filter_nil, none_eq_someN, Option.some.injEq, meanQ, stdSq]

/-- C4, counterexample: on a table whose only nonempty bin holds emissivity
values 0 and 1, the computed squared spread is 1/2 (sample variance,
divisor n-1) while the population variance is 1/4; since `Series.std` is
the square root of the former and square roots are injective on
nonnegatives, the computed statistic is not the population standard
deviation. -/
theorem C4_population_std_cex :
    stdSq ((groupRows (binsOf ([⟨10, 0, 0⟩, ⟨20, 0, 0⟩, ⟨20, 1, 0⟩] : List Row) 10)
        ([⟨10, 0, 0⟩, ⟨20, 0, 0⟩, ⟨20, 1, 0⟩] : List Row) 0).map Row.emis) = some (1/2) ∧
    popStdSq ((groupRows (binsOf ([⟨10, 0, 0⟩, ⟨20, 0, 0⟩, ⟨20, 1, 0⟩] : List Row) 10)
        ([⟨10, 0, 0⟩, ⟨20, 0, 0⟩, ⟨20, 1, 0⟩] : List Row) 0).map Row.emis) = some (1/4) ∧
    stdSq ((groupRows (binsOf ([⟨10, 0, 0⟩, ⟨20, 0, 0⟩, ⟨20, 1, 0⟩] : List Row) 10)
        ([⟨10, 0, 0⟩, ⟨20, 0, 0⟩, ⟨20, 1, 0⟩] : List Row) 0).map Row.emis) ≠
      popStdSq ((groupRows (binsOf ([⟨10, 0, 0⟩, ⟨20, 0, 0⟩, ⟨20, 1, 0⟩] : List Row) 10)
        ([⟨10, 0, 0⟩, ⟨20, 0, 0⟩, ⟨20, 1, 0⟩] : List Row) 0).map Row.emis) := by
  have hb : binsOf ([⟨10, 0, 0⟩, ⟨20, 0, 0⟩, ⟨20, 1, 0⟩] : List Row) 10 = [10, 20] := by
    rw [binsOf_eq _ _ 10 20 (by norm_num [colMin, min_def]) (by norm_num [colMax, max_def])]
    rw [arange_eval 10 (20 + 1/20) 10 2 (ceil_toNat_eq _ 2 (by norm_num) (by norm_num))]
    norm_num [List.range_succ]
  have hg : groupRows (binsOf ([⟨10, 0, 0⟩, ⟨20, 0, 0⟩, ⟨20, 1, 0⟩] : List Row) 10)
      ([⟨10, 0, 0⟩, ⟨20, 0, 0⟩, ⟨20, 1, 0⟩] : List Row) 0 = [⟨20, 0, 0⟩, ⟨20, 1, 0⟩] := by
    rw [hb]
    norm_num [groupRows, cut, List.range_succ, List.find?, List.filter_cons, List.filter_nil,
      none_eq_someN, Option.some.injEq]
  rw [hg]
  norm_num [stdSq, popStdSq]

/-- C4, amended: the per-bin emissivity spread statistic is the sample
standard deviation (pandas default `ddof=1`): its square satisfies the
divisor-(n-1) identity `(n·Σx² - (Σx)²) / (n·(n-1))` on every bin with at
least two rows. -/
theorem C4_sample_std_amended (edges : List ℚ) (t : List Row) (i : ℕ)
    (h : 2 ≤ ((groupRows edges t i).map Row.emis).length) :
    stdSq ((groupRows edges t i).map Row.emis) =
      some (((((groupRows edges t i).map Row.emis).length : ℚ) *
          (((groupRows edges t i).map Row.emis).map (fun x => x ^ 2)).sum -
          ((groupRows edges t i).map Row.emis).sum ^ 2) /
        ((((groupRows edges t i).map Row.emis).length : ℚ) *
          ((((groupRows edges t i).map Row.emis).length : ℚ) - 1))) :=
  stdSq_sample_formula _ h

/-- C4, witness for the amended theorem: a bin holding emissivities 0 and 1
has squared spread (2·1 - 1)/(2·1) = 1/2. -/
theorem C4_sample_std_amended_witness :
    stdSq ((groupRows [(0 : ℚ), 1] ([⟨1, 0, 0⟩, ⟨1, 1, 0⟩] : List Row) 0).map Row.emis) =
      some (1/2) := by
  have h2 : (2 : ℕ) ≤ ((groupRows [(0 : ℚ), 1] ([⟨1, 0, 0⟩, ⟨1, 1, 0⟩] : List Row) 0).map
      Row.emis).length := by
    norm_num [groupRows, cut, List.range_succ, List.find?, List.filter_cons, List.filter_nil,
      none_eq_someN, Option.some.injEq]
  rw [C4_sample_std_amended [(0 : ℚ), 1] ([⟨1, 0, 0⟩, ⟨1, 1, 0⟩] : List Row) 0 h2]
  norm_num [groupRows, cut, List.range_succ, List.find?, List.filter_cons, List.filter_nil,
    none_eq_someN, Option.some.injEq]

/-- C5: on every nonempty bin, the (squared) emissivity spread is undefined
(NaN, modelled `none`) exactly when the bin has one row, and whenever it is
defined its value is nonnegative — so the standard deviation, its square
root, is defined and ≥ 0 on bins of two or more rows and NaN, not 0, on
one-row bins. -/
theorem C5_std_defined_nonneg (edges : List ℚ) (t : List Row) (i : ℕ)
    (hne : 1 ≤ (groupRows edges t i).length) :
    (stdSq ((groupRows edges t i).map Row.emis) = none ↔
      (groupRows edges t i).length = 1) ∧
    ∀ q : ℚ, stdSq ((groupRows edges t i).map Row.emis) = some q → 0 ≤ q := by
  have hlen : ((groupRows edges t i).map Row.emis).length = (groupRows edges t i).length :=
    List.length_map _ _
  constructor
  · by_cases hc : ((groupRows edges t i).map Row.emis).length ≤ 1
    · rw [stdSq, if_pos hc]
      constructor
      · intro _
        omega
      · intro _
        rfl
    · rw [stdSq, if_neg hc]
      constructor
      · intro hcon
        exact absurd hcon (by simp)
      · intro hl1
        exact absurd (by omega : ((groupRows edges t i).map Row.emis).length ≤ 1) hc
  · intro q hq
    by_cases hc : ((groupRows edges t i).map Row.emis).length ≤ 1
    · rw [stdSq, if_pos hc] at hq
      exact absurd hq (by simp)
    · rw [stdSq, if_neg hc] at hq
      obtain rfl : _ = q := Option.some.inj hq
      apply div_nonneg
      · apply List.sum_nonneg
        intro x hx
        rw [List.mem_map] at hx
        obtain ⟨y, -, rfl⟩ := hx
        exact sq_nonneg _
      · have h2 : 2 ≤ ((groupRows edges t i).map Row.emis).length := by omega
        have h2q : (2 : ℚ) ≤ (((groupRows edges t i).map Row.emis).length : ℚ) := by
          exact_mod_cast h2
        linarith

/-- C5, witness: a bin group with the single emissivity 5 has undefined
spread; every defined value would be nonnegative. -/
theorem C5_std_defined_nonneg_witness :
    (stdSq ((groupRows [(0 : ℚ), 1] ([⟨1, 5, 0⟩] : List Row) 0).map Row.emis) = none ↔
      (groupRows [(0 : ℚ), 1] ([⟨1, 5, 0⟩] : List Row) 0).length = 1) ∧
    ∀ q : ℚ, stdSq ((groupRows [(0 : ℚ), 1] ([⟨1, 5, 0⟩] : List Row) 0).map Row.emis) =
      some q → 0 ≤ q :=
  C5_std_defined_nonneg [(0 : ℚ), 1] ([⟨1, 5, 0⟩] : List Row) 0 (by
    norm_num [groupRows, cut, List.range_succ, List.find?, List.filter_cons, List.filter_nil,
      none_eq_someN, Option.some.injEq])

/-- C6: a row survives the V-table range filter exactly when it is a row of
the V table whose incidence angle lies within the H table's
incidence-angle [min, max]; only out-of-range rows are dropped. -/
theorem C6_range_filter (dfh dfv : List Row) (mn mx : ℚ)
    (h1 : colMin (dfh.map Row.inc) = some mn) (h2 : colMax (dfh.map Row.inc) = some mx)
    (r : Row) :
    r ∈ filterV dfh dfv ↔ r ∈ dfv ∧ mn ≤ r.inc ∧ r.inc ≤ mx := by
  simp only [filterV, h1, h2]
  rw [List.mem_filter]
  simp only [decide_eq_true_eq]

/-- C6, witness: with H incidence angles 10 and 20, the V row at angle 15
is retained exactly because it lies in [10, 20]. -/
theorem C6_range_filter_witness :
    (⟨15, 1, 2⟩ : Row) ∈ filterV ([⟨10, 0, 0⟩, ⟨20, 0, 0⟩] : List Row)
        ([⟨15, 1, 2⟩] : List Row) ↔
      (⟨15, 1, 2⟩ : Row) ∈ ([⟨15, 1, 2⟩] : List Row) ∧
        (10 : ℚ) ≤ (⟨15, 1, 2⟩ : Row).inc ∧ (⟨15, 1, 2⟩ : Row).inc ≤ 20 :=
  C6_range_filter _ _ 10 20 (by norm_num [colMin, min_def]) (by norm_num [colMax, max_def]) _

/-- C7: evaluation at the failing input.  Line 90 reads the H file with the
V file's first layer name (`Hlayer` from line 87 is never used), so with an
H file whose only layer is "A" and a V file whose only layer is "B" the H
read fails (`none`), even though reading each file's own first layer — the
loader contract, and what Pipeline A does — succeeds. -/
theorem C7_wrong_layer_read :
    loadTables ⟨[⟨"A", [⟨1, 2, 3⟩]⟩]⟩ ⟨[⟨"B", [⟨4, 5, 6⟩]⟩]⟩ = none ∧
    read_first ⟨[⟨"A", [⟨1, 2, 3⟩]⟩]⟩ = some [⟨1, 2, 3⟩] ∧
    read_first ⟨[⟨"B", [⟨4, 5, 6⟩]⟩]⟩ = some [⟨4, 5, 6⟩] := by
  refine ⟨?_, ?_, ?_⟩ <;>
    simp [loadTables, read_first, read_file, listlayers, List.find?]

/-- C8: the sort-filter-bin-aggregate stage is a pure function of the two
input tables and the bin size: two runs on identical inputs and identical
configuration produce identical bin summaries for both tables. -/
theorem C8_deterministic_stage (s : ℚ) (h1 v1 h2 v2 : List Row)
    (hh : h1 = h2) (hv : v1 = v2) :
    stage s h1 v1 = stage s h2 v2 := by
  rw [hh, hv]

/-- C8, witness at a concrete pair of equal runs. -/
theorem C8_deterministic_stage_witness :
    stage 10 ([⟨10, 1, 0⟩, ⟨20, 2, 1⟩] : List Row) ([⟨15, 3, 2⟩] : List Row) =
      stage 10 ([⟨10, 1, 0⟩, ⟨20, 2, 1⟩] : List Row) ([⟨15, 3, 2⟩] : List Row) :=
  C8_deterministic_stage 10 _ _ _ _ rfl rfl
